import Mathlib

/-!
Verification of the Case tournament process (`axelrod/case.py`).

The state machine is embedded shallowly:
* agents are represented by their display name (`str(player)`): the process
  only ever observes an agent through `str(p)`, `reset()` (which keeps the
  name) and `clone()` (which produces an agent with the same name);
* the match engine (`Match`, external collaborator) is abstracted as an
  oracle `scoreFn : List String → List ℚ` producing the round score vector
  computed by `score_all`; per-turn-normalized float scores are modelled
  as rationals;
* each call to `random.choice(l)` is modelled by an externally supplied
  natural number `r`, the chosen element being `l[r % l.length]`; quantifying
  over `r` covers every possible draw;
* `raise StopIteration` in `__next__` is modelled by returning `true` in the
  second component of the result.
-/

namespace Axelrod

/-- A directed graph as used by the process: an ordered vertex list and an
edge list.  `axelrod/graph.py` is not part of the sources under review, so the
graph operations below are modelled from the spec. -/
structure CGraph where
  vertices : List Nat
  edges : List (Nat × Nat)
  deriving DecidableEq, Repr

/-- Modelled from the spec: `Graph(edges, directed)` from `axelrod/graph.py`
(not in src/) derives its vertex set from the endpoints of the given edge
list (each edge's source occurs; the edge list of a complete graph already
contains every vertex as a source). -/
def graph_from_edges (edges : List (Nat × Nat)) : CGraph :=
  { vertices := (edges.map (fun e => e.1)).dedup, edges := edges }

/-- The edge list of the complete directed graph on `n` vertices without
self-loops: every ordered pair `(i, j)` with `i ≠ j`. -/
def complete_edges (n : Nat) : List (Nat × Nat) :=
  (List.range n).flatMap
    (fun i => ((List.range n).filter (fun j => j ≠ i)).map (fun j => (i, j)))

/-- Modelled from the spec: `complete_graph(n, loops=False)` from
`axelrod/graph.py` (not in src/): the complete graph over the `n` slots with
no self-loops. -/
def complete_graph (n : Nat) : CGraph :=
  graph_from_edges (complete_edges n)

/-- Modelled from the spec: `Graph.add_loops` from `axelrod/graph.py`
(not in src/): add a self-loop at every vertex. -/
def add_loops (g : CGraph) : CGraph :=
  { g with edges := g.edges ++ g.vertices.map (fun v => (v, v)) }

/-- The mutable state of a `CaseProcess` instance.  Field names follow the
source attributes. Agents are represented by their display names. -/
structure CaseState where
  initial_players : List String
  players : List String
  maximum_round : Nat
  current_round : Nat
  replace_amount : Nat
  noise : ℚ
  current_scores : List ℚ
  score_history : List (List ℚ)
  populations : List (List (String × Nat))
  winning_strategy_name : Option String
  interaction_graph : CGraph
  reproduction_graph : CGraph
  deriving DecidableEq, Repr

instance : Inhabited CaseState :=
  ⟨{ initial_players := [], players := [], maximum_round := 0,
     current_round := 0, replace_amount := 0, noise := 0,
     current_scores := [], score_history := [], populations := [],
     winning_strategy_name := none,
     interaction_graph := ⟨[], []⟩, reproduction_graph := ⟨[], []⟩ }⟩

/-- `population_distribution`: the `Counter` of display names, listed in
first-occurrence order with their multiplicities. -/
def population_distribution (players : List String) : List (String × Nat) :=
  players.dedup.map (fun s => (s, players.count s))

/-- `set_players`: reset every initial agent (names unchanged), copy the
initial agents back into the slots and restart the snapshot history with the
construction-time snapshot. -/
def set_players (st : CaseState) : CaseState :=
  { st with players := st.initial_players,
            populations := [population_distribution st.initial_players] }

/-- `CaseProcess.__init__`: the constructor.  The two `assert` statements on
`replace_amount` and `noise` and the vertex-set `assert` are modelled by
returning `none` (a fatal configuration error).  The caller-supplied
interaction/reproduction graph arguments are accepted and then unconditionally
overwritten with the complete graph without self-loops and with the same edge
set plus self-loops, exactly as in the source. -/
def mkCaseProcess (players : List String) (maximum_round : Nat) (noise : ℚ)
    (replace_amount : Nat) (igArg rgArg : Option CGraph) : Option CaseState :=
  if replace_amount < players.length then
    if 0 ≤ noise ∧ noise ≤ 1 then
      let interaction_graph := complete_graph players.length
      let reproduction_graph := add_loops (graph_from_edges interaction_graph.edges)
      if interaction_graph.vertices = reproduction_graph.vertices then
        some (set_players
          { initial_players := players, players := [],
            maximum_round := maximum_round, current_round := 0,
            replace_amount := replace_amount, noise := noise,
            current_scores := [], score_history := [], populations := [],
            winning_strategy_name := none,
            interaction_graph := interaction_graph,
            reproduction_graph := reproduction_graph })
      else none
    else none
  else none

/-- `np.min` of the score vector (the source never applies it to an empty
vector; the `[]` case is defaulted to `0`). -/
def npMin (l : List ℚ) : ℚ :=
  match l with
  | [] => 0
  | x :: xs => xs.foldl min x

/-- `np.max` of the score vector (the source never applies it to an empty
vector; the `[]` case is defaulted to `0`). -/
def npMax (l : List ℚ) : ℚ :=
  match l with
  | [] => 0
  | x :: xs => xs.foldl max x

/-- `CaseProcess.death`: the indices attaining the minimum of the current
score vector; `random.choice` among them is modelled by the draw `r`. -/
def death (scores : List ℚ) (r : Nat) : Nat × ℚ :=
  let lowest_scorers :=
    (List.range scores.length).filter (fun idx => scores.getD idx 0 = npMin scores)
  let lowest_scorer := lowest_scorers.getD (r % lowest_scorers.length) 0
  (lowest_scorer, scores.getD lowest_scorer 0)

/-- `CaseProcess.birth`: the indices attaining the maximum of the current
score vector; `random.choice` among them is modelled by the draw `r`. -/
def birth (scores : List ℚ) (r : Nat) : Nat × ℚ :=
  let highest_scorers :=
    (List.range scores.length).filter (fun idx => scores.getD idx 0 = npMax scores)
  let highest_scorer := highest_scorers.getD (r % highest_scorers.length) 0
  (highest_scorer, scores.getD highest_scorer 0)

/-- `CaseProcess.fixation_check`: fixation holds when the set of distinct
display names has size exactly one, in which case the winning strategy name
is set to the name of the player in slot 0. -/
def fixation_check (st : CaseState) : CaseState × Bool :=
  if st.players.dedup.length = 1 then
    ({ st with winning_strategy_name := some (st.players.headD "") }, true)
  else (st, false)

/-- The replacement loop of `CaseProcess.__next__`: `for _ in
range(replace_amount)`, re-drawing death each iteration against the same
score vector; the `i`-th iteration uses the draw `dr i`.  Returns the updated
slots and the early-stop flag (`stop_flag`). -/
def replace_loop (scores : List ℚ) (high_scorer : Nat) (high_score : ℚ)
    (dr : Nat → Nat) : Nat → List String → List String × Bool
  | 0, players => (players, false)
  | k + 1, players =>
    let d := death scores (dr 0)
    if d.2 = high_score then (players, true)
    else
      replace_loop scores high_scorer high_score (fun i => dr (i + 1)) k
        (players.set d.1 (players.getD high_scorer ""))

/-- `CaseProcess.__next__`, one round transition.  `scoreFn` abstracts
`score_all`'s invocation of the external match engine (the resulting round
score vector); its recording in `current_scores`/`score_history` follows the
source.  `br` is the birth draw, `dr i` the `i`-th death draw.  The second
component is `true` when the source raises `StopIteration`. -/
def caseNext (scoreFn : List String → List ℚ) (br : Nat) (dr : Nat → Nat)
    (st : CaseState) : CaseState × Bool :=
  let fc := fixation_check st
  if fc.2 = true ∨ fc.1.current_round = fc.1.maximum_round then (fc.1, true)
  else
    let scores := scoreFn fc.1.players
    let st1 := { fc.1 with current_scores := scores,
                           score_history := fc.1.score_history ++ [scores] }
    let b := birth scores br
    let rl := replace_loop scores b.1 b.2 dr st1.replace_amount st1.players
    let st2 := { st1 with players := rl.1,
                          populations := st1.populations ++ [population_distribution rl.1] }
    if rl.2 = true then (st2, true)
    else
      let fc2 := fixation_check st2
      ({ fc2.1 with current_round := fc2.1.current_round + 1 }, false)

/-- `CaseProcess._matchup_indices`, specialized to the graphs the constructor
actually installs (the complete interaction graph over `n` slots): the sorted
vertex list is `0, …, n-1`, the slot↔vertex index map is the identity, the
sorted out-neighbors of `i` are all `j ≠ i` in ascending order, and no slot
is ever `None`.  A candidate pair is skipped when either orientation was
already emitted. -/
def matchup_indices (n : Nat) : List (Nat × Nat) :=
  (List.range n).foldl
    (fun indices i =>
      ((List.range n).filter (fun j => j ≠ i)).foldl
        (fun acc j => if (i, j) ∈ acc ∨ (j, i) ∈ acc then acc else acc ++ [(i, j)])
        indices)
    []

/-- `ApproximateCaseProcess._get_scores_from_cache`.  `cached_outcomes` maps a
name pair to the 2-tuple produced by `sample()` on this call (`none` when the
key is absent, i.e. a `KeyError`); a final `none` models the fatal,
undefaulted lookup failure propagated to the caller. -/
def get_scores_from_cache (cached_outcomes : String × String → Option (ℚ × ℚ))
    (player_names : String × String) : Option (ℚ × ℚ) :=
  match cached_outcomes player_names with
  | some s => some s
  | none =>
    match cached_outcomes (player_names.2, player_names.1) with
    | some s => some (s.2, s.1)
    | none => none

/-- `CaseProcess.reset`: unset the winning name, clear the score history and
re-install the initial players (which also resets the snapshot history). -/
def resetProcess (st : CaseState) : CaseState :=
  set_players { st with winning_strategy_name := none, score_history := [] }

/-- `CaseProcess.play`, fuel-bounded: repeatedly call `__next__` until it
signals `StopIteration`.  The oracle streams give round `t` its score vector
(`scoreSeq t`), birth draw (`brSeq t`) and death draws (`drSeq t`).  The
second component is `true` when the process terminated within `fuel` steps. -/
def playRec (scoreSeq : Nat → List String → List ℚ) (brSeq : Nat → Nat)
    (drSeq : Nat → Nat → Nat) : Nat → CaseState → CaseState × Bool
  | 0, st => (st, false)
  | fuel + 1, st =>
    let r := caseNext (scoreSeq 0) (brSeq 0) (drSeq 0) st
    if r.2 = true then (r.1, true)
    else
      playRec (fun i => scoreSeq (i + 1)) (fun i => brSeq (i + 1))
        (fun i => drSeq (i + 1)) fuel r.1

/-! ### Basic lemmas about the selection extrema -/

theorem foldl_max_mem (xs : List ℚ) (x : ℚ) : xs.foldl max x ∈ x :: xs := by
  induction xs generalizing x with
  | nil => simp
  | cons y ys ih =>
    show List.foldl max (max x y) ys ∈ x :: y :: ys
    have h := ih (max x y)
    rcases List.mem_cons.1 h with h1 | h1
    · rw [h1]
      rcases max_choice x y with h2 | h2 <;> rw [h2]
      · exact List.mem_cons_self _ _
      · exact List.mem_cons_of_mem _ (List.mem_cons_self _ _)
    · exact List.mem_cons_of_mem _ (List.mem_cons_of_mem _ h1)

theorem le_foldl_max (xs : List ℚ) (x : ℚ) : ∀ y ∈ x :: xs, y ≤ xs.foldl max x := by
  induction xs generalizing x with
  | nil => intro y hy; simp at hy; simp [hy]
  | cons z zs ih =>
    intro y hy
    rcases List.mem_cons.1 hy with h1 | h1
    · have := ih (max x z) (max x z) (List.mem_cons_self _ _)
      calc y = x := h1
        _ ≤ max x z := le_max_left _ _
        _ ≤ zs.foldl max (max x z) := this
    · rcases List.mem_cons.1 h1 with h2 | h2
      · have := ih (max x z) (max x z) (List.mem_cons_self _ _)
        calc y = z := h2
          _ ≤ max x z := le_max_right _ _
          _ ≤ zs.foldl max (max x z) := this
      · exact ih (max x z) y (List.mem_cons_of_mem _ h2)

theorem foldl_min_mem (xs : List ℚ) (x : ℚ) : xs.foldl min x ∈ x :: xs := by
  induction xs generalizing x with
  | nil => simp
  | cons y ys ih =>
    show List.foldl min (min x y) ys ∈ x :: y :: ys
    have h := ih (min x y)
    rcases List.mem_cons.1 h with h1 | h1
    · rw [h1]
      rcases min_choice x y with h2 | h2 <;> rw [h2]
      · exact List.mem_cons_self _ _
      · exact List.mem_cons_of_mem _ (List.mem_cons_self _ _)
    · exact List.mem_cons_of_mem _ (List.mem_cons_of_mem _ h1)

theorem foldl_min_le (xs : List ℚ) (x : ℚ) : ∀ y ∈ x :: xs, xs.foldl min x ≤ y := by
  induction xs generalizing x with
  | nil => intro y hy; simp at hy; simp [hy]
  | cons z zs ih =>
    intro y hy
    rcases List.mem_cons.1 hy with h1 | h1
    · have := ih (min x z) (min x z) (List.mem_cons_self _ _)
      calc zs.foldl min (min x z) ≤ min x z := this
        _ ≤ x := min_le_left _ _
        _ = y := h1.symm
    · rcases List.mem_cons.1 h1 with h2 | h2
      · have := ih (min x z) (min x z) (List.mem_cons_self _ _)
        calc zs.foldl min (min x z) ≤ min x z := this
          _ ≤ z := min_le_right _ _
          _ = y := h2.symm
      · exact ih (min x z) y (List.mem_cons_of_mem _ h2)

theorem npMax_mem (l : List ℚ) (h : l ≠ []) : npMax l ∈ l := by
  match l with
  | x :: xs => exact foldl_max_mem xs x

theorem npMin_mem (l : List ℚ) (h : l ≠ []) : npMin l ∈ l := by
  match l with
  | x :: xs => exact foldl_min_mem xs x

theorem le_npMax (l : List ℚ) (y : ℚ) (hy : y ∈ l) : y ≤ npMax l := by
  match l with
  | x :: xs => exact le_foldl_max xs x y hy

theorem npMin_le (l : List ℚ) (y : ℚ) (hy : y ∈ l) : npMin l ≤ y := by
  match l with
  | x :: xs => exact foldl_min_le xs x y hy

/-- The candidate list of `birth`: the slots attaining the maximum. -/
def highest_scorers (scores : List ℚ) : List Nat :=
  (List.range scores.length).filter (fun idx => scores.getD idx 0 = npMax scores)

/-- The candidate list of `death`: the slots attaining the minimum. -/
def lowest_scorers (scores : List ℚ) : List Nat :=
  (List.range scores.length).filter (fun idx => scores.getD idx 0 = npMin scores)

theorem getD_eq_of_lt (l : List ℚ) (i : Nat) (h : i < l.length) :
    l.getD i 0 = l[i] := by
  simp [List.getD, List.getElem?_eq_getElem h]

theorem highest_scorers_ne_nil (scores : List ℚ) (h : scores ≠ []) :
    highest_scorers scores ≠ [] := by
  have hmem := npMax_mem scores h
  obtain ⟨i, hi, hig⟩ := List.mem_iff_getElem.1 hmem
  have : i ∈ highest_scorers scores := by
    refine List.mem_filter.2 ⟨List.mem_range.2 hi, ?_⟩
    simp only [decide_eq_true_eq]
    rw [getD_eq_of_lt scores i hi]
    exact hig
  intro hc
  rw [hc] at this
  exact List.not_mem_nil _ this

theorem lowest_scorers_ne_nil (scores : List ℚ) (h : scores ≠ []) :
    lowest_scorers scores ≠ [] := by
  have hmem := npMin_mem scores h
  obtain ⟨i, hi, hig⟩ := List.mem_iff_getElem.1 hmem
  have : i ∈ lowest_scorers scores := by
    refine List.mem_filter.2 ⟨List.mem_range.2 hi, ?_⟩
    simp only [decide_eq_true_eq]
    rw [getD_eq_of_lt scores i hi]
    exact hig
  intro hc
  rw [hc] at this
  exact List.not_mem_nil _ this

theorem getD_mem_of_ne_nil (l : List Nat) (r : Nat) (h : l ≠ []) :
    l.getD (r % l.length) 0 ∈ l := by
  have hlen : 0 < l.length := List.length_pos.2 h
  have hlt : r % l.length < l.length := Nat.mod_lt _ hlen
  rw [List.getD_eq_getElem l 0 hlt]
  exact List.getElem_mem hlt

/-- `birth` chooses a slot from the argmax candidate list. -/
theorem birth_fst_mem (scores : List ℚ) (r : Nat) (h : scores ≠ []) :
    (birth scores r).1 ∈ highest_scorers scores :=
  getD_mem_of_ne_nil _ r (highest_scorers_ne_nil scores h)

/-- `death` chooses a slot from the argmin candidate list. -/
theorem death_fst_mem (scores : List ℚ) (r : Nat) (h : scores ≠ []) :
    (death scores r).1 ∈ lowest_scorers scores :=
  getD_mem_of_ne_nil _ r (lowest_scorers_ne_nil scores h)

/-- The score returned by `birth` is always exactly `np.max` of the vector
(the degenerate empty vector, on which the source would fault, gives the
default `0 = npMax []`). -/
theorem birth_snd (scores : List ℚ) (r : Nat) : (birth scores r).2 = npMax scores := by
  by_cases h : scores = []
  · subst h; rfl
  · have hm := birth_fst_mem scores r h
    have := (List.mem_filter.1 hm).2
    simpa [birth, highest_scorers] using of_decide_eq_true this

/-- The score returned by `death` is always exactly `np.min` of the vector. -/
theorem death_snd (scores : List ℚ) (r : Nat) : (death scores r).2 = npMin scores := by
  by_cases h : scores = []
  · subst h; rfl
  · have hm := death_fst_mem scores r h
    have := (List.mem_filter.1 hm).2
    simpa [death, lowest_scorers] using of_decide_eq_true this

theorem mem_highest_scorers (scores : List ℚ) (i : Nat)
    (h : i ∈ highest_scorers scores) :
    i < scores.length ∧ scores.getD i 0 = npMax scores := by
  obtain ⟨h1, h2⟩ := List.mem_filter.1 h
  exact ⟨List.mem_range.1 h1, of_decide_eq_true h2⟩

theorem mem_lowest_scorers (scores : List ℚ) (i : Nat)
    (h : i ∈ lowest_scorers scores) :
    i < scores.length ∧ scores.getD i 0 = npMin scores := by
  obtain ⟨h1, h2⟩ := List.mem_filter.1 h
  exact ⟨List.mem_range.1 h1, of_decide_eq_true h2⟩

/-- C2: for every non-empty round score vector, `birth` returns a slot/score
pair whose score is exactly the maximum of the vector and whose slot is a
member of the argmax candidate set (so the slot's own entry attains the
maximum); `death` likewise returns the minimum and a slot from the argmin
candidate set.  This holds for every possible random draw `rb`/`rd`. -/
theorem c2_birth_death_extremal (scores : List ℚ) (rb rd : Nat) (h : scores ≠ []) :
    (birth scores rb).2 = npMax scores ∧
    (birth scores rb).1 ∈ highest_scorers scores ∧
    scores.getD (birth scores rb).1 0 = npMax scores ∧
    (death scores rd).2 = npMin scores ∧
    (death scores rd).1 ∈ lowest_scorers scores ∧
    scores.getD (death scores rd).1 0 = npMin scores := by
  refine ⟨birth_snd scores rb, birth_fst_mem scores rb h, ?_,
          death_snd scores rd, death_fst_mem scores rd h, ?_⟩
  · exact (mem_highest_scorers scores _ (birth_fst_mem scores rb h)).2
  · exact (mem_lowest_scorers scores _ (death_fst_mem scores rd h)).2

theorem c2_birth_death_extremal_witness :
    (birth [1, 3, 2] 0).2 = npMax [1, 3, 2] ∧
    (death [1, 3, 2] 5).2 = npMin [1, 3, 2] :=
  ⟨(c2_birth_death_extremal [1, 3, 2] 0 5 (by decide)).1,
   (c2_birth_death_extremal [1, 3, 2] 0 5 (by decide)).2.2.2.1⟩

/-! ### The replacement loop -/

/-- The early-stop flag of the replacement loop is decided before any
replacement is applied: since every death draw scores exactly `npMin scores`
and the birth score is `npMax scores`, the flag is raised iff the loop runs at
least once and the extrema coincide. -/
theorem replace_loop_flag_iff (scores : List ℚ) (hsl : Nat) (br : Nat)
    (k : Nat) (dr : Nat → Nat) (players : List String) :
    (replace_loop scores hsl (birth scores br).2 dr k players).2 = true ↔
      (1 ≤ k ∧ npMin scores = npMax scores) := by
  induction k generalizing dr players with
  | zero => simp [replace_loop]
  | succ k ih =>
    rw [replace_loop]
    rw [death_snd scores (dr 0), birth_snd scores br]
    by_cases hc : npMin scores = npMax scores
    · rw [if_pos hc]
      simp [hc]
    · rw [if_neg hc]
      rw [birth_snd scores br] at ih
      rw [ih]
      simp [hc]

theorem replace_loop_flag_players (scores : List ℚ) (hsl : Nat) (br : Nat)
    (k : Nat) (dr : Nat → Nat) (players : List String)
    (hflag : (replace_loop scores hsl (birth scores br).2 dr k players).2 = true) :
    (replace_loop scores hsl (birth scores br).2 dr k players).1 = players := by
  cases k with
  | zero => rfl
  | succ k =>
    have hmm := (replace_loop_flag_iff scores hsl br (k + 1) dr players).1 hflag
    rw [replace_loop]
    rw [death_snd scores (dr 0), birth_snd scores br, if_pos hmm.2]


/-! ### Structural lemmas about `fixation_check` and `caseNext` -/

theorem fixation_check_snd_iff (st : CaseState) :
    (fixation_check st).2 = true ↔ st.players.dedup.length = 1 := by
  unfold fixation_check
  split <;> simp_all

theorem fixation_check_fst_of_false (st : CaseState)
    (h : (fixation_check st).2 = false) : (fixation_check st).1 = st := by
  by_cases hd : st.players.dedup.length = 1
  · exfalso
    unfold fixation_check at h
    rw [if_pos hd] at h
    simp at h
  · unfold fixation_check
    rw [if_neg hd]

theorem fixation_check_players (st : CaseState) :
    (fixation_check st).1.players = st.players := by
  unfold fixation_check; split <;> rfl

theorem fixation_check_round (st : CaseState) :
    (fixation_check st).1.current_round = st.current_round := by
  unfold fixation_check; split <;> rfl

theorem fixation_check_winning (st : CaseState) :
    (fixation_check st).1.winning_strategy_name =
      if st.players.dedup.length = 1 then some (st.players.headD "")
      else st.winning_strategy_name := by
  unfold fixation_check
  by_cases hd : st.players.dedup.length = 1
  · rw [if_pos hd, if_pos hd]
  · rw [if_neg hd, if_neg hd]

/-- The replacement loop a running round performs, as determined by the
round's score vector, the birth draw and the death draws. -/
def roundReplace (scoreFn : List String → List ℚ) (br : Nat) (dr : Nat → Nat)
    (st : CaseState) : List String × Bool :=
  replace_loop (scoreFn st.players) (birth (scoreFn st.players) br).1
    (birth (scoreFn st.players) br).2 dr st.replace_amount st.players

/-- Unfolding of one running (non-terminal-at-entry) round transition. -/
theorem caseNext_running_eq (scoreFn : List String → List ℚ) (br : Nat)
    (dr : Nat → Nat) (st : CaseState)
    (hfix : (fixation_check st).2 = false)
    (hcap : st.current_round ≠ st.maximum_round) :
    caseNext scoreFn br dr st =
      (let scores := scoreFn st.players
       let rl := roundReplace scoreFn br dr st
       let st2 : CaseState :=
         { st with current_scores := scores,
                   score_history := st.score_history ++ [scores],
                   players := rl.1,
                   populations := st.populations ++ [population_distribution rl.1] }
       if rl.2 = true then (st2, true)
       else ({ (fixation_check st2).1 with current_round := st.current_round + 1 }, false)) := by
  have h1 : (fixation_check st).1 = st := fixation_check_fst_of_false st hfix
  simp only [caseNext, roundReplace, h1, hfix, Bool.false_eq_true, false_or]
  rw [if_neg hcap]
  split
  · rfl
  · rw [fixation_check_round]

theorem fixation_check_populations (st : CaseState) :
    (fixation_check st).1.populations = st.populations := by
  unfold fixation_check; split <;> rfl

theorem fixation_check_history (st : CaseState) :
    (fixation_check st).1.score_history = st.score_history := by
  unfold fixation_check; split <;> rfl

theorem caseNext_running_players (scoreFn : List String → List ℚ) (br : Nat)
    (dr : Nat → Nat) (st : CaseState)
    (hfix : (fixation_check st).2 = false)
    (hcap : st.current_round ≠ st.maximum_round) :
    (caseNext scoreFn br dr st).1.players = (roundReplace scoreFn br dr st).1 := by
  rw [caseNext_running_eq scoreFn br dr st hfix hcap]
  by_cases hrl : (roundReplace scoreFn br dr st).2 = true
  · simp only [hrl, if_true]
  · simp only [if_neg hrl, fixation_check_players]

theorem caseNext_running_populations (scoreFn : List String → List ℚ) (br : Nat)
    (dr : Nat → Nat) (st : CaseState)
    (hfix : (fixation_check st).2 = false)
    (hcap : st.current_round ≠ st.maximum_round) :
    (caseNext scoreFn br dr st).1.populations
      = st.populations ++ [population_distribution (roundReplace scoreFn br dr st).1] := by
  rw [caseNext_running_eq scoreFn br dr st hfix hcap]
  by_cases hrl : (roundReplace scoreFn br dr st).2 = true
  · simp only [hrl, if_true]
  · simp only [if_neg hrl, fixation_check_populations]

theorem caseNext_running_history (scoreFn : List String → List ℚ) (br : Nat)
    (dr : Nat → Nat) (st : CaseState)
    (hfix : (fixation_check st).2 = false)
    (hcap : st.current_round ≠ st.maximum_round) :
    (caseNext scoreFn br dr st).1.score_history
      = st.score_history ++ [scoreFn st.players] := by
  rw [caseNext_running_eq scoreFn br dr st hfix hcap]
  by_cases hrl : (roundReplace scoreFn br dr st).2 = true
  · simp only [hrl, if_true]
  · simp only [if_neg hrl, fixation_check_history]

theorem caseNext_running_flag (scoreFn : List String → List ℚ) (br : Nat)
    (dr : Nat → Nat) (st : CaseState)
    (hfix : (fixation_check st).2 = false)
    (hcap : st.current_round ≠ st.maximum_round) :
    (caseNext scoreFn br dr st).2 = (roundReplace scoreFn br dr st).2 := by
  rw [caseNext_running_eq scoreFn br dr st hfix hcap]
  by_cases hrl : (roundReplace scoreFn br dr st).2 = true
  · simp only [hrl, if_true]
  · simp only [if_neg hrl]
    rw [Bool.not_eq_true] at hrl
    exact hrl.symm

theorem caseNext_running_round (scoreFn : List String → List ℚ) (br : Nat)
    (dr : Nat → Nat) (st : CaseState)
    (hfix : (fixation_check st).2 = false)
    (hcap : st.current_round ≠ st.maximum_round) :
    (caseNext scoreFn br dr st).1.current_round
      = (if (roundReplace scoreFn br dr st).2 = true then st.current_round
         else st.current_round + 1) := by
  rw [caseNext_running_eq scoreFn br dr st hfix hcap]
  by_cases hrl : (roundReplace scoreFn br dr st).2 = true
  · simp only [hrl, if_true]
  · simp only [if_neg hrl]

theorem caseNext_running_winning (scoreFn : List String → List ℚ) (br : Nat)
    (dr : Nat → Nat) (st : CaseState)
    (hfix : (fixation_check st).2 = false)
    (hcap : st.current_round ≠ st.maximum_round) :
    (caseNext scoreFn br dr st).1.winning_strategy_name
      = (if (roundReplace scoreFn br dr st).2 = true then st.winning_strategy_name
         else if (roundReplace scoreFn br dr st).1.dedup.length = 1
              then some ((roundReplace scoreFn br dr st).1.headD "")
              else st.winning_strategy_name) := by
  rw [caseNext_running_eq scoreFn br dr st hfix hcap]
  by_cases hrl : (roundReplace scoreFn br dr st).2 = true
  · simp only [hrl, if_true]
  · simp only [if_neg hrl, fixation_check_winning]

/-- A concrete two-player process used to instantiate universally quantified
claims: players `A`, `B`, round cap 5, no noise, one replacement per round. -/
def exSt2 : CaseState := (mkCaseProcess ["A", "B"] 5 0 1 none none).getD default

/-- C1: in every round transition that starts with neither fixation nor the
round cap, the step computes the score vector once, draws birth once, then
runs the replacement loop (`roundReplace`: up to `replace_amount` death draws,
all against the same score vector, aborting with the early-stop flag as soon
as a death score equals the birth score); afterwards a new population snapshot
is appended; if the flag was set, the step raises `StopIteration` (the round
counter does not advance), otherwise fixation is re-checked (possibly setting
the winning name) and the round counter advances by one. -/
theorem c1_round_transition (scoreFn : List String → List ℚ) (br : Nat)
    (dr : Nat → Nat) (st : CaseState)
    (hfix : (fixation_check st).2 = false)
    (hcap : st.current_round ≠ st.maximum_round) :
    (caseNext scoreFn br dr st).1.players = (roundReplace scoreFn br dr st).1 ∧
    (caseNext scoreFn br dr st).1.populations
      = st.populations ++ [population_distribution (roundReplace scoreFn br dr st).1] ∧
    (caseNext scoreFn br dr st).1.score_history
      = st.score_history ++ [scoreFn st.players] ∧
    (caseNext scoreFn br dr st).2 = (roundReplace scoreFn br dr st).2 ∧
    ((roundReplace scoreFn br dr st).2 = true →
      (caseNext scoreFn br dr st).1.current_round = st.current_round ∧
      (caseNext scoreFn br dr st).1.winning_strategy_name = st.winning_strategy_name) ∧
    ((roundReplace scoreFn br dr st).2 = false →
      (caseNext scoreFn br dr st).1.current_round = st.current_round + 1 ∧
      (caseNext scoreFn br dr st).1.winning_strategy_name
        = (if (roundReplace scoreFn br dr st).1.dedup.length = 1
           then some ((roundReplace scoreFn br dr st).1.headD "")
           else st.winning_strategy_name)) := by
  refine ⟨caseNext_running_players scoreFn br dr st hfix hcap,
          caseNext_running_populations scoreFn br dr st hfix hcap,
          caseNext_running_history scoreFn br dr st hfix hcap,
          caseNext_running_flag scoreFn br dr st hfix hcap, ?_, ?_⟩
  · intro hflag
    rw [caseNext_running_round scoreFn br dr st hfix hcap,
        caseNext_running_winning scoreFn br dr st hfix hcap, if_pos hflag, if_pos hflag]
    exact ⟨rfl, rfl⟩
  · intro hflag
    have hflag' : ¬ (roundReplace scoreFn br dr st).2 = true := by simp [hflag]
    rw [caseNext_running_round scoreFn br dr st hfix hcap,
        caseNext_running_winning scoreFn br dr st hfix hcap, if_neg hflag', if_neg hflag']
    exact ⟨rfl, rfl⟩

theorem c1_round_transition_witness :
    (caseNext (fun _ => [1, 0]) 0 (fun _ => 0) exSt2).1.populations
      = exSt2.populations
          ++ [population_distribution (roundReplace (fun _ => [1, 0]) 0 (fun _ => 0) exSt2).1] :=
  (c1_round_transition (fun _ => [1, 0]) 0 (fun _ => 0) exSt2 (by decide) (by decide)).2.1

/-- C10: the score-collapse early stop can only trigger on the first
replacement unit of a round: every death draw scores the fixed minimum and
birth the fixed maximum of the round's unchanging score vector, so the flag
is raised iff the loop runs at least once and min = max — in which case no
slot is overwritten, and a collapse-terminated round leaves the population
exactly as it was at the start of the round. -/
theorem c10_collapse_zero_overwrites (scores : List ℚ) (br k : Nat)
    (dr : Nat → Nat) (players : List String)
    (scoreFn : List String → List ℚ) (st : CaseState) :
    ((replace_loop scores (birth scores br).1 (birth scores br).2 dr k players).2 = true ↔
        1 ≤ k ∧ npMin scores = npMax scores) ∧
    ((replace_loop scores (birth scores br).1 (birth scores br).2 dr k players).2 = true →
        (replace_loop scores (birth scores br).1 (birth scores br).2 dr k players).1 = players) ∧
    ((fixation_check st).2 = false → st.current_round ≠ st.maximum_round →
        (caseNext scoreFn br dr st).2 = true →
        (caseNext scoreFn br dr st).1.players = st.players) := by
  refine ⟨replace_loop_flag_iff scores (birth scores br).1 br k dr players,
          replace_loop_flag_players scores (birth scores br).1 br k dr players, ?_⟩
  intro hfix hcap hterm
  rw [caseNext_running_flag scoreFn br dr st hfix hcap] at hterm
  rw [caseNext_running_players scoreFn br dr st hfix hcap]
  exact replace_loop_flag_players (scoreFn st.players) (birth (scoreFn st.players) br).1
    br st.replace_amount dr st.players hterm

theorem c10_collapse_zero_overwrites_witness :
    (replace_loop [1, 1] (birth [1, 1] 0).1 (birth [1, 1] 0).2 (fun _ => 0) 1
        ["A", "B"]).1 = ["A", "B"] :=
  (c10_collapse_zero_overwrites [1, 1] 0 1 (fun _ => 0) ["A", "B"]
      (fun _ => [1, 1]) exSt2).2.1 (by decide)

/-! ### Terminal entry checks of `__next__` -/

theorem caseNext_fixed (scoreFn : List String → List ℚ) (br : Nat) (dr : Nat → Nat)
    (st : CaseState) (h : (fixation_check st).2 = true) :
    caseNext scoreFn br dr st = ((fixation_check st).1, true) := by
  simp only [caseNext, h]
  rw [if_pos (Or.inl trivial)]

theorem caseNext_cap (scoreFn : List String → List ℚ) (br : Nat) (dr : Nat → Nat)
    (st : CaseState) (hfix : (fixation_check st).2 = false)
    (hcap : st.current_round = st.maximum_round) :
    caseNext scoreFn br dr st = (st, true) := by
  have h1 := fixation_check_fst_of_false st hfix
  simp only [caseNext, h1, hfix]
  rw [if_pos (Or.inr hcap)]

theorem dedup_replicate (a : String) (n : Nat) (h : 1 ≤ n) :
    (List.replicate n a).dedup = [a] := by
  induction n with
  | zero => omega
  | succ n ih =>
    cases n with
    | zero => simp
    | succ m =>
      rw [List.replicate_succ, List.dedup_cons_of_mem (by simp [List.mem_replicate])]
      exact ih (by omega)

/-! ### Construction -/

theorem mkCaseProcess_eq_some (players : List String) (maximum_round : Nat)
    (noise : ℚ) (replace_amount : Nat) (igArg rgArg : Option CGraph)
    (hk : replace_amount < players.length) (h0 : 0 ≤ noise) (h1 : noise ≤ 1) :
    mkCaseProcess players maximum_round noise replace_amount igArg rgArg
      = some (set_players
          { initial_players := players, players := [],
            maximum_round := maximum_round, current_round := 0,
            replace_amount := replace_amount, noise := noise,
            current_scores := [], score_history := [], populations := [],
            winning_strategy_name := none,
            interaction_graph := complete_graph players.length,
            reproduction_graph :=
              add_loops (graph_from_edges (complete_graph players.length).edges) }) := by
  simp only [mkCaseProcess]
  rw [if_pos hk, if_pos ⟨h0, h1⟩]
  have hv : (complete_graph players.length).vertices
      = (add_loops (graph_from_edges (complete_graph players.length).edges)).vertices := rfl
  rw [if_pos hv]

theorem mkCaseProcess_inv (players : List String) (maximum_round : Nat)
    (noise : ℚ) (replace_amount : Nat) (igArg rgArg : Option CGraph)
    (st : CaseState)
    (h : mkCaseProcess players maximum_round noise replace_amount igArg rgArg = some st) :
    replace_amount < players.length ∧ 0 ≤ noise ∧ noise ≤ 1 ∧
    st = set_players
          { initial_players := players, players := [],
            maximum_round := maximum_round, current_round := 0,
            replace_amount := replace_amount, noise := noise,
            current_scores := [], score_history := [], populations := [],
            winning_strategy_name := none,
            interaction_graph := complete_graph players.length,
            reproduction_graph :=
              add_loops (graph_from_edges (complete_graph players.length).edges) } := by
  simp only [mkCaseProcess] at h
  split_ifs at h with hk hn hv
  injection h with h'
  exact ⟨hk, hn.1, hn.2, h'.symm⟩

/-- C7: construction fails (a fatal configuration error) whenever
`replace_amount ≥ N` or the noise probability lies outside `[0, 1]`, and
succeeds past these checks whenever `replace_amount < N` and `0 ≤ noise ≤ 1`
— for every caller-supplied argument combination. -/
theorem c7_construction_checks (players : List String) (maximum_round : Nat)
    (noise : ℚ) (replace_amount : Nat) (igArg rgArg : Option CGraph) :
    (players.length ≤ replace_amount ∨ noise < 0 ∨ 1 < noise →
        mkCaseProcess players maximum_round noise replace_amount igArg rgArg = none) ∧
    (replace_amount < players.length → 0 ≤ noise → noise ≤ 1 →
        ∃ st, mkCaseProcess players maximum_round noise replace_amount igArg rgArg
          = some st) := by
  constructor
  · intro hbad
    simp only [mkCaseProcess]
    by_cases hk : replace_amount < players.length
    · rw [if_pos hk]
      have hn : ¬(0 ≤ noise ∧ noise ≤ 1) := by
        rcases hbad with h | h | h
        · exact absurd hk (not_lt.2 h)
        · exact fun hc => absurd h (not_lt.2 hc.1)
        · exact fun hc => absurd h (not_lt.2 hc.2)
      rw [if_neg hn]
    · rw [if_neg hk]
  · intro hk h0 h1
    exact ⟨_, mkCaseProcess_eq_some players maximum_round noise replace_amount
      igArg rgArg hk h0 h1⟩

theorem c7_construction_checks_witness :
    mkCaseProcess ["A", "B", "C"] 10 0 3 none none = none :=
  (c7_construction_checks ["A", "B", "C"] 10 0 3 none none).1 (Or.inl (by decide))

/-- C8: approximate-mode score lookup: a present `(name_i, name_j)` key
returns its sampled 2-tuple as-is; if only the reversed key is present, the
sampled 2-tuple is returned reversed; if both orderings are absent, the
lookup fails fatally (propagated `KeyError`, never defaulted). -/
theorem c8_cache_lookup (table : String × String → Option (ℚ × ℚ))
    (names : String × String) (s : ℚ × ℚ) :
    (table names = some s → get_scores_from_cache table names = some s) ∧
    (table names = none → table (names.2, names.1) = some s →
        get_scores_from_cache table names = some (s.2, s.1)) ∧
    (table names = none → table (names.2, names.1) = none →
        get_scores_from_cache table names = none) := by
  refine ⟨?_, ?_, ?_⟩
  · intro h; unfold get_scores_from_cache; rw [h]
  · intro h h'; unfold get_scores_from_cache; rw [h, h']
  · intro h h'; unfold get_scores_from_cache; rw [h, h']

theorem c8_cache_lookup_witness :
    get_scores_from_cache
      (fun p => if p = ("B", "A") then some ((3 : ℚ), (5 : ℚ)) else none)
      ("A", "B") = some (5, 3) :=
  (c8_cache_lookup
      (fun p => if p = ("B", "A") then some ((3 : ℚ), (5 : ℚ)) else none)
      ("A", "B") (3, 5)).2.1 (by decide) (by decide)

/-! ### The forced topologies -/

theorem mem_complete_edges (n i j : Nat) :
    (i, j) ∈ complete_edges n ↔ i < n ∧ j < n ∧ i ≠ j := by
  unfold complete_edges
  simp only [List.mem_flatMap, List.mem_map, List.mem_filter, List.mem_range,
    decide_eq_true_eq]
  constructor
  · rintro ⟨a, ha, b, ⟨hb, hne⟩, heq⟩
    obtain ⟨h1, h2⟩ := Prod.mk.injEq .. ▸ heq
    refine ⟨h1 ▸ ha, h2 ▸ hb, ?_⟩
    rw [← h1, ← h2]
    exact fun hc => hne hc.symm
  · rintro ⟨hi, hj, hne⟩
    exact ⟨i, hi, j, ⟨hj, fun hc => hne hc.symm⟩, rfl⟩

/-- C9: for every successful construction — whatever interaction/reproduction
topology arguments the caller supplies (the result does not depend on them) —
the installed interaction topology is the complete graph over the N slots
without self-loops (its edges are exactly the ordered pairs of distinct slot
indices, its vertex set is the slot index set), the installed reproduction
topology has the same edge set plus a self-loop at every vertex, and the two
vertex sets are equal. -/
theorem c9_topologies_forced (players : List String) (maximum_round : Nat)
    (noise : ℚ) (replace_amount : Nat) (igArg rgArg igArg' rgArg' : Option CGraph)
    (st : CaseState)
    (h : mkCaseProcess players maximum_round noise replace_amount igArg rgArg = some st) :
    mkCaseProcess players maximum_round noise replace_amount igArg rgArg
      = mkCaseProcess players maximum_round noise replace_amount igArg' rgArg' ∧
    st.interaction_graph = complete_graph players.length ∧
    st.reproduction_graph
      = add_loops (graph_from_edges (complete_graph players.length).edges) ∧
    st.interaction_graph.vertices = st.reproduction_graph.vertices ∧
    (∀ i j : Nat, (i, j) ∈ st.interaction_graph.edges ↔
        i < players.length ∧ j < players.length ∧ i ≠ j) ∧
    (∀ v : Nat, (v, v) ∉ st.interaction_graph.edges) ∧
    (∀ v ∈ st.reproduction_graph.vertices, (v, v) ∈ st.reproduction_graph.edges) ∧
    st.reproduction_graph.edges
      = st.interaction_graph.edges
          ++ st.interaction_graph.vertices.map (fun v => (v, v)) ∧
    (2 ≤ players.length →
        ∀ v : Nat, (v ∈ st.interaction_graph.vertices ↔ v < players.length)) := by
  obtain ⟨hk, h0, h1, hst⟩ := mkCaseProcess_inv players maximum_round noise
    replace_amount igArg rgArg st h
  subst hst
  refine ⟨rfl, rfl, rfl, rfl, ?_, ?_, ?_, rfl, ?_⟩
  · intro i j
    exact mem_complete_edges players.length i j
  · intro v hv
    exact ((mem_complete_edges players.length v v).1 hv).2.2 rfl
  · intro v hv
    refine List.mem_append.2 (Or.inr (List.mem_map.2 ⟨v, ?_, rfl⟩))
    exact hv
  · intro h2 v
    show v ∈ ((complete_edges players.length).map (fun e => e.1)).dedup ↔ _
    rw [List.mem_dedup, List.mem_map]
    constructor
    · rintro ⟨e, he, hev⟩
      rcases e with ⟨a, b⟩
      have := (mem_complete_edges players.length a b).1 he
      exact hev ▸ this.1
    · intro hv
      by_cases hz : v = 0
      · exact ⟨(v, 1), (mem_complete_edges players.length v 1).2
          ⟨hv, by omega, by omega⟩, rfl⟩
      · exact ⟨(v, 0), (mem_complete_edges players.length v 0).2
          ⟨hv, by omega, hz⟩, rfl⟩

theorem c9_topologies_forced_witness :
    exSt2.interaction_graph.vertices = exSt2.reproduction_graph.vertices :=
  (c9_topologies_forced ["A", "B"] 5 0 1 none none (some ⟨[7], [(7, 7)]⟩) none
    exSt2 (by decide)).2.2.2.1

/-- C6: fixation is declared iff the set of distinct display names has size
exactly one; and a process constructed from a homogeneous population (every
agent sharing one display name) terminates on the very first iteration step
with the winning strategy name set to that shared name and the snapshot
history still containing only the construction-time snapshot. -/
theorem c6_homogeneous_first_step (name : String) (n maximum_round k : Nat)
    (noise : ℚ) (igArg rgArg : Option CGraph) (st : CaseState)
    (scoreFn : List String → List ℚ) (br : Nat) (dr : Nat → Nat)
    (h : mkCaseProcess (List.replicate n name) maximum_round noise k igArg rgArg
          = some st) :
    (∀ s : CaseState, ((fixation_check s).2 = true ↔ s.players.dedup.length = 1)) ∧
    (caseNext scoreFn br dr st).2 = true ∧
    (caseNext scoreFn br dr st).1.winning_strategy_name = some name ∧
    (caseNext scoreFn br dr st).1.populations.length = 1 := by
  obtain ⟨hk, h0, h1, hst⟩ := mkCaseProcess_inv (List.replicate n name)
    maximum_round noise k igArg rgArg st h
  have hn : 1 ≤ n := by
    have := hk
    rw [List.length_replicate] at this
    omega
  have hplayers : st.players = List.replicate n name := by rw [hst]; rfl
  have hded : st.players.dedup.length = 1 := by
    rw [hplayers, dedup_replicate name n hn]
    rfl
  have hfix : (fixation_check st).2 = true := (fixation_check_snd_iff st).2 hded
  rw [caseNext_fixed scoreFn br dr st hfix]
  refine ⟨fun s => fixation_check_snd_iff s, rfl, ?_, ?_⟩
  · rw [fixation_check_winning, if_pos hded, hplayers]
    cases n with
    | zero => omega
    | succ m => rfl
  · rw [fixation_check_populations, hst]
    rfl

theorem c6_homogeneous_first_step_witness :
    (caseNext (fun _ => [1, 1, 1, 1, 1]) 0 (fun _ => 0)
        ((mkCaseProcess (List.replicate 5 "TitForTat") 10 0 1 none none).getD default)).1.winning_strategy_name
      = some "TitForTat" :=
  (c6_homogeneous_first_step "TitForTat" 5 10 1 0 none none
      ((mkCaseProcess (List.replicate 5 "TitForTat") 10 0 1 none none).getD default)
      (fun _ => [1, 1, 1, 1, 1]) 0 (fun _ => 0) (by decide)).2.2.1

/-! ### Reset -/

/-- C4 (amended): `reset` restores the population to exactly the original
construction list (hence an identical name multiset), empties the score
history, leaves the snapshot history with exactly the construction-time
entry, and unsets the winning strategy name — but it does **not** reset the
round counter, which keeps its current value. -/
theorem c4_reset_restores (st : CaseState) :
    (resetProcess st).players = st.initial_players ∧
    (resetProcess st).score_history = [] ∧
    (resetProcess st).populations = [population_distribution st.initial_players] ∧
    (resetProcess st).populations.length = 1 ∧
    (resetProcess st).winning_strategy_name = none ∧
    (resetProcess st).current_round = st.current_round ∧
    (resetProcess st).maximum_round = st.maximum_round :=
  ⟨rfl, rfl, rfl, rfl, rfl, rfl, rfl⟩

/-- The round-cap-1 instance used for the reset counterexample. -/
def exCapSt : CaseState := (mkCaseProcess ["A", "B"] 1 0 1 none none).getD default

/-- The reachable state after one completed round of `exCapSt`. -/
def exCapReached : CaseState :=
  (caseNext (fun _ => [1, 0]) 0 (fun _ => 0) exCapSt).1

/-- C4 counterexample: on a freshly constructed 2-player instance with round
cap 1, one (non-terminating) round transition reaches a state whose round
counter equals the cap; `reset` restores players, histories and the winning
name, but leaves the round counter at the cap, so the subsequent run
terminates immediately — performing zero rounds (and not by fixation) —
instead of again performing rounds up to the configured maximum. -/
theorem c4_reset_counterexample :
    (caseNext (fun _ => [1, 0]) 0 (fun _ => 0) exCapSt).2 = false ∧
    (resetProcess exCapReached).players = ["A", "B"] ∧
    (resetProcess exCapReached).winning_strategy_name = none ∧
    (resetProcess exCapReached).score_history = [] ∧
    (resetProcess exCapReached).populations.length = 1 ∧
    (resetProcess exCapReached).maximum_round = 1 ∧
    (resetProcess exCapReached).current_round = 1 ∧
    (caseNext (fun _ => [1, 0]) 0 (fun _ => 0) (resetProcess exCapReached)).2 = true ∧
    (caseNext (fun _ => [1, 0]) 0 (fun _ => 0) (resetProcess exCapReached)).1.score_history
      = [] ∧
    (caseNext (fun _ => [1, 0]) 0 (fun _ => 0)
        (resetProcess exCapReached)).1.populations.length = 1 ∧
    (resetProcess exCapReached).players.dedup.length ≠ 1 := by
  decide

/-! ### The winning name marks exactly fixation-termination -/

/-- The population consists entirely of agents named `s` (and is nonempty):
the fixation condition, named. -/
def fixatedWith (players : List String) (s : String) : Prop :=
  players ≠ [] ∧ ∀ p ∈ players, p = s

/-- State invariant: a set winning strategy name always names a strategy the
population has fixated on.  It holds at construction (the name is unset) and
is preserved by every round transition. -/
def winningInv (st : CaseState) : Prop :=
  ∀ s, st.winning_strategy_name = some s → fixatedWith st.players s

theorem dedup_length_one_of (l : List String) (a : String) (hne : l ≠ [])
    (hall : ∀ x ∈ l, x = a) : l.dedup.length = 1 := by
  have hh : l.headD "" ∈ l := by
    cases l with
    | nil => exact absurd rfl hne
    | cons x xs => exact List.mem_cons_self _ _
  have hmem : a ∈ l.dedup := by
    rw [List.mem_dedup, ← hall _ hh]
    exact hh
  cases hd : l.dedup with
  | nil =>
    rw [hd] at hmem
    exact absurd hmem (List.not_mem_nil a)
  | cons b t =>
    have hnodup : (b :: t).Nodup := by rw [← hd]; exact l.nodup_dedup
    have hb : b = a := hall b (List.mem_dedup.1 (hd ▸ List.mem_cons_self b t))
    have ht : t = [] := by
      rw [List.eq_nil_iff_forall_not_mem]
      intro y hy
      have hya : y = a := hall y (List.mem_dedup.1 (hd ▸ List.mem_cons_of_mem b hy))
      exact (List.nodup_cons.1 hnodup).1 (by rw [hb, ← hya]; exact hy)
    rw [ht]
    rfl

theorem of_dedup_length_one (l : List String) (h : l.dedup.length = 1) :
    l ≠ [] ∧ ∀ x ∈ l, x = l.headD "" := by
  obtain ⟨a, ha⟩ := List.length_eq_one.1 h
  have hmem : ∀ x ∈ l, x = a := by
    intro x hx
    have hx' : x ∈ l.dedup := List.mem_dedup.2 hx
    rw [ha] at hx'
    simpa using hx'
  have hne : l ≠ [] := by
    intro hc
    rw [hc] at ha
    simp at ha
  have hh : l.headD "" ∈ l := by
    cases l with
    | nil => exact absurd rfl hne
    | cons x xs => exact List.mem_cons_self _ _
  have hhead : l.headD "" = a := hmem _ hh
  refine ⟨hne, fun x hx => ?_⟩
  rw [hmem x hx, hhead]

theorem winning_none_of_not_fixed (st : CaseState) (hinv : winningInv st)
    (hfix : (fixation_check st).2 = false) : st.winning_strategy_name = none := by
  cases hw : st.winning_strategy_name with
  | none => rfl
  | some s =>
    have hfx := hinv s hw
    have hded := dedup_length_one_of st.players s hfx.1 hfx.2
    have := (fixation_check_snd_iff st).2 hded
    rw [this] at hfix
    exact Bool.noConfusion hfix

theorem not_fixed_dedup_ne_one (st : CaseState)
    (hfix : (fixation_check st).2 = false) : st.players.dedup.length ≠ 1 := by
  intro hc
  rw [(fixation_check_snd_iff st).2 hc] at hfix
  exact Bool.noConfusion hfix

/-- Classification of a terminating step: it either stops because of
fixation — and then the winning name is set to the name the population has
fixated on — or because of the round cap or score collapse — and then the
winning name stays unset and the final population is not fixated. -/
theorem caseNext_terminal_classify (scoreFn : List String → List ℚ) (br : Nat)
    (dr : Nat → Nat) (st : CaseState) (hinv : winningInv st)
    (hterm : (caseNext scoreFn br dr st).2 = true) :
    (∃ s, (caseNext scoreFn br dr st).1.winning_strategy_name = some s ∧
        fixatedWith (caseNext scoreFn br dr st).1.players s) ∨
    ((caseNext scoreFn br dr st).1.winning_strategy_name = none ∧
     (caseNext scoreFn br dr st).1.players.dedup.length ≠ 1) := by
  by_cases hfix : (fixation_check st).2 = true
  · left
    rw [caseNext_fixed scoreFn br dr st hfix]
    have hded := (fixation_check_snd_iff st).1 hfix
    obtain ⟨hne, hall⟩ := of_dedup_length_one st.players hded
    refine ⟨st.players.headD "", ?_, ?_⟩
    · rw [fixation_check_winning, if_pos hded]
    · rw [fixation_check_players]
      exact ⟨hne, hall⟩
  · have hfix' : (fixation_check st).2 = false := by
      rw [← Bool.not_eq_true]
      exact hfix
    have hwin := winning_none_of_not_fixed st hinv hfix'
    by_cases hcap : st.current_round = st.maximum_round
    · right
      rw [caseNext_cap scoreFn br dr st hfix' hcap]
      exact ⟨hwin, not_fixed_dedup_ne_one st hfix'⟩
    · right
      have hflag : (roundReplace scoreFn br dr st).2 = true := by
        rw [← caseNext_running_flag scoreFn br dr st hfix' hcap]
        exact hterm
      constructor
      · rw [caseNext_running_winning scoreFn br dr st hfix' hcap, if_pos hflag]
        exact hwin
      · rw [caseNext_running_players scoreFn br dr st hfix' hcap]
        simp only [roundReplace] at hflag ⊢
        rw [replace_loop_flag_players (scoreFn st.players)
          (birth (scoreFn st.players) br).1 br st.replace_amount dr st.players hflag]
        exact not_fixed_dedup_ne_one st hfix'

/-- A non-terminating step preserves the winning-name invariant. -/
theorem caseNext_preserves_inv (scoreFn : List String → List ℚ) (br : Nat)
    (dr : Nat → Nat) (st : CaseState) (hinv : winningInv st)
    (hcont : (caseNext scoreFn br dr st).2 = false) :
    winningInv (caseNext scoreFn br dr st).1 := by
  by_cases hfix : (fixation_check st).2 = true
  · rw [caseNext_fixed scoreFn br dr st hfix] at hcont
    exact Bool.noConfusion hcont
  · have hfix' : (fixation_check st).2 = false := by
      rw [← Bool.not_eq_true]
      exact hfix
    by_cases hcap : st.current_round = st.maximum_round
    · rw [caseNext_cap scoreFn br dr st hfix' hcap] at hcont
      exact Bool.noConfusion hcont
    · have hflag : ¬ (roundReplace scoreFn br dr st).2 = true := by
        rw [caseNext_running_flag scoreFn br dr st hfix' hcap] at hcont
        rw [hcont]
        exact Bool.noConfusion
      intro s hs
      rw [caseNext_running_winning scoreFn br dr st hfix' hcap, if_neg hflag] at hs
      rw [caseNext_running_players scoreFn br dr st hfix' hcap]
      by_cases hd : (roundReplace scoreFn br dr st).1.dedup.length = 1
      · rw [if_pos hd] at hs
        injection hs with hs'
        obtain ⟨hne, hall⟩ := of_dedup_length_one _ hd
        rw [← hs']
        exact ⟨hne, hall⟩
      · rw [if_neg hd] at hs
        rw [winning_none_of_not_fixed st hinv hfix'] at hs
        exact Option.noConfusion hs

/-- Run-level classification: a terminated `play` loop either ends fixated
with the winning name set to the fixated strategy's name, or ends unfixated
with the winning name unset. -/
theorem playRec_terminal_classify (fuel : Nat) :
    ∀ (scoreSeq : Nat → List String → List ℚ) (brSeq : Nat → Nat)
      (drSeq : Nat → Nat → Nat) (st : CaseState), winningInv st →
      (playRec scoreSeq brSeq drSeq fuel st).2 = true →
      ((∃ s, (playRec scoreSeq brSeq drSeq fuel st).1.winning_strategy_name = some s ∧
          fixatedWith (playRec scoreSeq brSeq drSeq fuel st).1.players s) ∨
       ((playRec scoreSeq brSeq drSeq fuel st).1.winning_strategy_name = none ∧
        (playRec scoreSeq brSeq drSeq fuel st).1.players.dedup.length ≠ 1)) := by
  induction fuel with
  | zero =>
    intro scoreSeq brSeq drSeq st _ hterm
    exact absurd hterm (by simp [playRec])
  | succ fuel ih =>
    intro scoreSeq brSeq drSeq st hinv hterm
    by_cases hr : (caseNext (scoreSeq 0) (brSeq 0) (drSeq 0) st).2 = true
    · have heq : playRec scoreSeq brSeq drSeq (fuel + 1) st
          = ((caseNext (scoreSeq 0) (brSeq 0) (drSeq 0) st).1, true) := by
        simp only [playRec, hr, if_true]
      rw [heq]
      exact caseNext_terminal_classify (scoreSeq 0) (brSeq 0) (drSeq 0) st hinv hr
    · have hr' : (caseNext (scoreSeq 0) (brSeq 0) (drSeq 0) st).2 = false := by
        rw [← Bool.not_eq_true]
        exact hr
      have heq : playRec scoreSeq brSeq drSeq (fuel + 1) st
          = playRec (fun i => scoreSeq (i + 1)) (fun i => brSeq (i + 1))
              (fun i => drSeq (i + 1)) fuel
              (caseNext (scoreSeq 0) (brSeq 0) (drSeq 0) st).1 := by
        simp [playRec, hr']
      rw [heq] at hterm ⊢
      exact ih _ _ _ _ (caseNext_preserves_inv (scoreSeq 0) (brSeq 0) (drSeq 0) st hinv hr') hterm

/-- C5: the winning strategy name distinguishes the termination causes.
A step terminating because of fixation sets the winning name (to the fixated
strategy, the population being entirely of that name); a step terminating
because the round cap was reached, or because of birth/death score collapse,
leaves the winning name unset (given the invariant that a set name means
fixation, which holds from construction on).  Consequently a terminated
`play` run ends with the winning name set iff it ended fixated (i.e. by the
fixation check), and unset exactly when it ended unfixated (round cap or
score collapse). -/
theorem c5_winning_name_distinguishes (scoreFn : List String → List ℚ)
    (br : Nat) (dr : Nat → Nat) (st : CaseState)
    (scoreSeq : Nat → List String → List ℚ) (brSeq : Nat → Nat)
    (drSeq : Nat → Nat → Nat) (fuel : Nat) (st' : CaseState) :
    ((fixation_check st).2 = true →
        (caseNext scoreFn br dr st).2 = true ∧
        (caseNext scoreFn br dr st).1.winning_strategy_name
          = some (st.players.headD "") ∧
        fixatedWith (caseNext scoreFn br dr st).1.players (st.players.headD "")) ∧
    (winningInv st → (fixation_check st).2 = false →
        st.current_round = st.maximum_round →
        (caseNext scoreFn br dr st).2 = true ∧
        (caseNext scoreFn br dr st).1.winning_strategy_name = none) ∧
    (winningInv st → (fixation_check st).2 = false →
        st.current_round ≠ st.maximum_round →
        (caseNext scoreFn br dr st).2 = true →
        (caseNext scoreFn br dr st).1.winning_strategy_name = none) ∧
    (winningInv st' → (playRec scoreSeq brSeq drSeq fuel st').2 = true →
        ((∃ s, (playRec scoreSeq brSeq drSeq fuel st').1.winning_strategy_name = some s ∧
            fixatedWith (playRec scoreSeq brSeq drSeq fuel st').1.players s) ∨
         ((playRec scoreSeq brSeq drSeq fuel st').1.winning_strategy_name = none ∧
          (playRec scoreSeq brSeq drSeq fuel st').1.players.dedup.length ≠ 1))) := by
  refine ⟨?_, ?_, ?_, ?_⟩
  · intro hfix
    rw [caseNext_fixed scoreFn br dr st hfix]
    have hded := (fixation_check_snd_iff st).1 hfix
    obtain ⟨hne, hall⟩ := of_dedup_length_one st.players hded
    refine ⟨rfl, ?_, ?_⟩
    · rw [fixation_check_winning, if_pos hded]
    · rw [fixation_check_players]
      exact ⟨hne, hall⟩
  · intro hinv hfix hcap
    rw [caseNext_cap scoreFn br dr st hfix hcap]
    exact ⟨rfl, winning_none_of_not_fixed st hinv hfix⟩
  · intro hinv hfix hcap hterm
    have hflag : (roundReplace scoreFn br dr st).2 = true := by
      rw [← caseNext_running_flag scoreFn br dr st hfix hcap]
      exact hterm
    rw [caseNext_running_winning scoreFn br dr st hfix hcap, if_pos hflag]
    exact winning_none_of_not_fixed st hinv hfix
  · exact playRec_terminal_classify fuel scoreSeq brSeq drSeq st'

theorem c5_winning_name_distinguishes_witness :
    (caseNext (fun _ => [1, 0]) 0 (fun _ => 0) (resetProcess exCapReached)).2 = true ∧
    (caseNext (fun _ => [1, 0]) 0 (fun _ => 0)
        (resetProcess exCapReached)).1.winning_strategy_name = none :=
  (c5_winning_name_distinguishes (fun _ => [1, 0]) 0 (fun _ => 0)
      (resetProcess exCapReached) (fun _ => fun _ => [1, 0]) (fun _ => 0)
      (fun _ => fun _ => 0) 1 exCapSt).2.1
    (fun s hs => Option.noConfusion hs) (by decide) (by decide)


/-! ### The matchup enumeration -/

/-- The target shape of the enumeration: all pairs `(i, j)` with
`i < a`, `i < j < n`, listed in lexicographic order. -/
def canonical_upto (n a : Nat) : List (Nat × Nat) :=
  (List.range a).flatMap
    (fun i => ((List.range n).filter (fun j => i < j)).map (fun j => (i, j)))

theorem mem_canonical_upto (n a : Nat) (p : Nat × Nat) :
    p ∈ canonical_upto n a ↔ p.1 < a ∧ p.1 < p.2 ∧ p.2 < n := by
  unfold canonical_upto
  simp only [List.mem_flatMap, List.mem_map, List.mem_filter, List.mem_range,
    decide_eq_true_eq]
  constructor
  · rintro ⟨i, hi, j, ⟨hj, hij⟩, hp⟩
    rw [← hp]
    exact ⟨hi, hij, hj⟩
  · rintro ⟨h1, h2, h3⟩
    exact ⟨p.1, h1, p.2, ⟨h3, h2⟩, Prod.mk.eta⟩

/-- One row of the duplicate-skipping fold: if all earlier rows were already
emitted and nothing of this row was, the fold appends exactly the pairs
`(i, j)` with `j` in source order and `i < j`. -/
theorem inner_fold_eq (i : Nat) (L : List Nat) (acc : List (Nat × Nat))
    (hpw : L.Pairwise (· < ·))
    (hne : ∀ j ∈ L, j ≠ i)
    (hlt : ∀ j ∈ L, j < i → (j, i) ∈ acc)
    (hgt : ∀ j ∈ L, i < j → (i, j) ∉ acc ∧ (j, i) ∉ acc) :
    L.foldl (fun acc j => if (i, j) ∈ acc ∨ (j, i) ∈ acc then acc else acc ++ [(i, j)])
        acc
      = acc ++ (L.filter (fun j => i < j)).map (fun j => (i, j)) := by
  induction L generalizing acc with
  | nil => simp
  | cons j T ih =>
    obtain ⟨hpw1, hpw2⟩ := List.pairwise_cons.1 hpw
    have hji : j ≠ i := hne j (List.mem_cons_self _ _)
    rw [List.foldl_cons]
    rcases Nat.lt_or_ge j i with hj | hj
    · -- j < i: the mirrored pair was emitted in row j already; skip.
      rw [if_pos (Or.inr (hlt j (List.mem_cons_self _ _) hj))]
      rw [List.filter_cons_of_neg (by simp; omega)]
      exact ih acc hpw2 (fun x hx => hne x (List.mem_cons_of_mem _ hx))
        (fun x hx => hlt x (List.mem_cons_of_mem _ hx))
        (fun x hx => hgt x (List.mem_cons_of_mem _ hx))
    · have hij : i < j := by omega
      have hni := hgt j (List.mem_cons_self _ _) hij
      rw [if_neg (by rintro (hc | hc); exact hni.1 hc; exact hni.2 hc)]
      rw [List.filter_cons_of_pos (by simp [hij])]
      have hgt' : ∀ x ∈ T, i < x →
          (i, x) ∉ acc ++ [(i, j)] ∧ (x, i) ∉ acc ++ [(i, j)] := by
        intro x hx hix
        have hjx : j < x := hpw1 x hx
        have hxi : x ≠ i := hne x (List.mem_cons_of_mem _ hx)
        have hg := hgt x (List.mem_cons_of_mem _ hx) hix
        constructor
        · intro hc
          rcases List.mem_append.1 hc with hc | hc
          · exact hg.1 hc
          · have hx2 : x = j := by
              have h2 := congrArg Prod.snd (List.mem_singleton.1 hc)
              simpa using h2
            omega
        · intro hc
          rcases List.mem_append.1 hc with hc | hc
          · exact hg.2 hc
          · have hx1 : x = i := by
              have h2 := congrArg Prod.fst (List.mem_singleton.1 hc)
              simpa using h2
            exact hxi hx1
      rw [ih (acc ++ [(i, j)]) hpw2
        (fun x hx => hne x (List.mem_cons_of_mem _ hx))
        (fun x hx hxi => List.mem_append_left _ (hlt x (List.mem_cons_of_mem _ hx) hxi))
        hgt']
      rw [List.map_cons]
      simp [List.append_assoc]

theorem outer_fold_eq (n : Nat) :
    ∀ (len a : Nat), a + len = n →
      (List.range' a len).foldl
          (fun indices i =>
            ((List.range n).filter (fun j => j ≠ i)).foldl
              (fun acc j =>
                if (i, j) ∈ acc ∨ (j, i) ∈ acc then acc else acc ++ [(i, j)])
              indices)
          (canonical_upto n a)
        = canonical_upto n n := by
  intro len
  induction len with
  | zero =>
    intro a ha
    simp only [List.range', List.foldl_nil]
    rw [Nat.add_zero] at ha
    rw [ha]
  | succ len ih =>
    intro a ha
    have han : a < n := by omega
    rw [List.range'_succ, List.foldl_cons]
    have hff : ((List.range n).filter (fun j => j ≠ a)).filter (fun j => a < j)
        = (List.range n).filter (fun j => a < j) := by
      rw [List.filter_filter]
      apply List.filter_congr
      intro j hj
      by_cases hja : a < j
      · simp [hja, Nat.ne_of_gt hja]
      · simp [hja]
    have hrow :
        ((List.range n).filter (fun j => j ≠ a)).foldl
            (fun acc j =>
              if (a, j) ∈ acc ∨ (j, a) ∈ acc then acc else acc ++ [(a, j)])
            (canonical_upto n a)
          = canonical_upto n (a + 1) := by
      rw [inner_fold_eq a _ _
        (List.Pairwise.sublist (List.filter_sublist _) (List.pairwise_lt_range n))
        (fun j hj => by simpa using (List.mem_filter.1 hj).2)
        (fun j hj hja => by
          rw [mem_canonical_upto]
          exact ⟨hja, hja, han⟩)
        (fun j hj hja => by
          constructor
          · intro hc
            have hm := (mem_canonical_upto n a _).1 hc
            exact absurd hm.1 (lt_irrefl a)
          · intro hc
            have hm := (mem_canonical_upto n a _).1 hc
            omega)]
      rw [hff]
      unfold canonical_upto
      rw [List.range_succ, List.flatMap_append]
      simp
    rw [hrow]
    exact ih (a + 1) (by omega)

/-- The duplicate-skipping fold of `_matchup_indices` produces exactly the
lexicographically ordered pairs `(i, j)`, `i < j < n`. -/
theorem matchup_indices_eq (n : Nat) : matchup_indices n = canonical_upto n n := by
  have h0 : canonical_upto n 0 = [] := by
    unfold canonical_upto
    simp
  have h := outer_fold_eq n n 0 (by omega)
  rw [h0, ← List.range_eq_range'] at h
  unfold matchup_indices
  exact h


theorem filter_lt_range_length (n i : Nat) :
    ((List.range n).filter (fun j => i < j)).length = n - (i + 1) := by
  induction n with
  | zero => simp
  | succ n ih =>
    rw [List.range_succ, List.filter_append, List.length_append, ih]
    by_cases h : i < n
    · have hone : (List.filter (fun j => decide (i < j)) [n]).length = 1 := by
        simp [h]
      rw [hone]
      omega
    · have hzero : (List.filter (fun j => decide (i < j)) [n]).length = 0 := by
        simp [h]
      rw [hzero]
      omega

theorem sum_map_succ (l : List Nat) (g : Nat → Nat) :
    (l.map (fun i => g i + 1)).sum = (l.map g).sum + l.length := by
  induction l with
  | nil => rfl
  | cons x xs ih =>
    simp only [List.map_cons, List.sum_cons, List.length_cons, ih]
    omega

theorem two_mul_sum_range (n : Nat) :
    2 * ((List.range n).map (fun i => n - (i + 1))).sum = n * (n - 1) := by
  induction n with
  | zero => rfl
  | succ n ih =>
    rw [List.range_succ, List.map_append, List.sum_append]
    have hlast : ([n].map (fun i => n + 1 - (i + 1))).sum = 0 := by simp
    have hmap : (List.range n).map (fun i => n + 1 - (i + 1))
        = (List.range n).map (fun i => (n - (i + 1)) + 1) := by
      apply List.map_congr_left
      intro a ha
      have : a < n := List.mem_range.1 ha
      omega
    rw [hlast, hmap, sum_map_succ, List.length_range]
    have hexp : (n + 1) * (n + 1 - 1) = n * (n - 1) + 2 * n := by
      cases n with
      | zero => rfl
      | succ m =>
        simp only [Nat.add_sub_cancel]
        ring
    rw [hexp]
    linarith

theorem length_canonical (n : Nat) :
    (canonical_upto n n).length = n * (n - 1) / 2 := by
  have h2 : 2 * (canonical_upto n n).length = n * (n - 1) := by
    unfold canonical_upto
    rw [List.length_flatMap]
    have hmap : List.map
        (List.length ∘ fun i => ((List.range n).filter (fun j => i < j)).map (fun j => (i, j)))
        (List.range n)
        = (List.range n).map (fun i => n - (i + 1)) := by
      apply List.map_congr_left
      intro a ha
      show (((List.range n).filter (fun j => a < j)).map (fun j => (a, j))).length
          = n - (a + 1)
      rw [List.length_map]
      exact filter_lt_range_length n a
    rw [hmap, two_mul_sum_range]
  have hgen : ∀ m : Nat, 2 * (canonical_upto n n).length = m →
      (canonical_upto n n).length = m / 2 := by
    intro m hm
    omega
  exact hgen _ h2

theorem nodup_canonical (n : Nat) : (canonical_upto n n).Nodup := by
  unfold canonical_upto
  rw [List.nodup_flatMap]
  constructor
  · intro i hi
    apply List.Nodup.map
    · intro a b hab
      have := congrArg Prod.snd hab
      simpa using this
    · exact (List.nodup_range n).filter _
  · refine (List.pairwise_lt_range n).imp ?_
    intro a b hab
    intro p hpa hpb
    obtain ⟨x, hx, hpx⟩ := List.mem_map.1 hpa
    obtain ⟨y, hy, hpy⟩ := List.mem_map.1 hpb
    have hfst : a = b := by
      have := hpx.trans hpy.symm
      have h2 := congrArg Prod.fst this
      simpa using h2
    exact absurd hfst (Nat.ne_of_lt hab)

/-- C3: under the complete interaction topology on `N ≥ 2` slots, the matchup
enumeration emits exactly `N·(N−1)/2` pairs: each pair has distinct in-range
components (no self-pairs), every unordered pair of distinct slots appears
(in its `i < j` orientation), no pair appears twice, and no pair appears in
both orientations (a candidate is skipped when its mirror was already
emitted). -/
theorem c3_matchup_enumeration (n : Nat) (h : 2 ≤ n) :
    (matchup_indices n).length = n * (n - 1) / 2 ∧
    (matchup_indices n).Nodup ∧
    (∀ p ∈ matchup_indices n, p.1 < p.2 ∧ p.2 < n) ∧
    (∀ i j : Nat, i < j → j < n → (i, j) ∈ matchup_indices n) ∧
    (∀ i j : Nat, ¬((i, j) ∈ matchup_indices n ∧ (j, i) ∈ matchup_indices n)) := by
  rw [matchup_indices_eq]
  refine ⟨length_canonical n, nodup_canonical n, ?_, ?_, ?_⟩
  · intro p hp
    have hm := (mem_canonical_upto n n p).1 hp
    exact ⟨hm.2.1, hm.2.2⟩
  · intro i j hij hj
    exact (mem_canonical_upto n n (i, j)).2 ⟨by omega, by simpa using hij, by simpa using hj⟩
  · rintro i j ⟨h1, h2⟩
    have ha := (mem_canonical_upto n n (i, j)).1 h1
    have hb := (mem_canonical_upto n n (j, i)).1 h2
    simp at ha hb
    omega

theorem c3_matchup_enumeration_witness :
    (matchup_indices 4).length = 4 * (4 - 1) / 2 :=
  (c3_matchup_enumeration 4 (by decide)).1

end Axelrod
